import Mathlib

/-!
Verification development for the cargo-hoist registry and
project-discovery subsystem.

The definitions below are a shallow embedding of the Rust source:

* `HoistedBinary` embeds `src/binaries.rs` (`HoistedBinary`): a name
  paired with a filesystem location.  Paths are modelled as strings.
* `HoistRegistry` embeds `src/registry.rs` (`HoistRegistry`): the
  `HashSet<HoistedBinary>` field `binaries` is modelled as a `Finset`.
* `HoistRegistry.insert` embeds `HoistRegistry::insert`.
-/

namespace CargoHoist

/-- Binary metadata object: a logical name paired with the binary's
filesystem location (embeds `HoistedBinary` of `src/binaries.rs`;
identity is the full (name, location) pair). -/
structure HoistedBinary where
  name : String
  location : String
deriving DecidableEq, Repr

/-- The hoist registry: an unordered collection of hoisted binaries,
unique by the full (name, location) identity (embeds the
`HashSet<HoistedBinary>` field of `HoistRegistry` in `src/registry.rs`). -/
structure HoistRegistry where
  binaries : Finset HoistedBinary
deriving DecidableEq

/-- Embeds `HoistRegistry::insert`: inserts the binary unless an
identical record is already present. -/
def HoistRegistry.insert (r : HoistRegistry) (b : HoistedBinary) : HoistRegistry :=
  if b ∈ r.binaries then r else ⟨Insert.insert b r.binaries⟩

theorem insert_binaries (r : HoistRegistry) (b : HoistedBinary) :
    (r.insert b).binaries = Insert.insert b r.binaries := by
  unfold HoistRegistry.insert
  by_cases h : b ∈ r.binaries
  · simp [h, Finset.insert_eq_self.mpr h]
  · simp [h]

theorem foldl_insert_binaries (r : HoistRegistry) (xs : List HoistedBinary) :
    (xs.foldl HoistRegistry.insert r).binaries = r.binaries ∪ xs.toFinset := by
  induction xs generalizing r with
  | nil => simp
  | cons x t ih =>
    simp only [List.foldl_cons, ih, insert_binaries, List.toFinset_cons]
    rw [Finset.insert_union, Finset.union_insert]

/-- C2: `HoistRegistry::insert` is a no-op when an identical
(name, location) record is already present, and for every sequence of
inserts into the empty registry the resulting record count equals the
number of distinct (name, location) pairs inserted; the resulting
record set is moreover independent of the call order and of duplicates
(permuted insertion sequences give the same registry). -/
theorem insert_dedup_invariant :
    (∀ (r : HoistRegistry) (b : HoistedBinary), b ∈ r.binaries → r.insert b = r) ∧
    (∀ xs : List HoistedBinary,
      ((xs.foldl HoistRegistry.insert ⟨∅⟩).binaries).card = xs.toFinset.card) ∧
    (∀ xs ys : List HoistedBinary, xs.Perm ys →
      xs.foldl HoistRegistry.insert ⟨∅⟩ = ys.foldl HoistRegistry.insert ⟨∅⟩) := by
  refine ⟨fun r b h => ?_, fun xs => ?_, fun xs ys h => ?_⟩
  · simp [HoistRegistry.insert, h]
  · simp [foldl_insert_binaries]
  · have hx := foldl_insert_binaries ⟨∅⟩ xs
    have hy := foldl_insert_binaries ⟨∅⟩ ys
    have : (xs.foldl HoistRegistry.insert ⟨∅⟩).binaries
        = (ys.foldl HoistRegistry.insert ⟨∅⟩).binaries := by
      rw [hx, hy, List.toFinset_eq_of_perm xs ys h]
    cases hrx : xs.foldl HoistRegistry.insert ⟨∅⟩
    cases hry : ys.foldl HoistRegistry.insert ⟨∅⟩
    simp_all

/-- Witness for C2 at a concrete registry: reinserting the record
already present leaves the registry unchanged. -/
theorem insert_dedup_invariant_witness :
    HoistRegistry.insert ⟨{⟨"foo", "/a/foo"⟩}⟩ ⟨"foo", "/a/foo"⟩ = ⟨{⟨"foo", "/a/foo"⟩}⟩ :=
  insert_dedup_invariant.1 ⟨{⟨"foo", "/a/foo"⟩}⟩ ⟨"foo", "/a/foo"⟩ (by decide)

/-- Embeds the registry-mutating core of `HoistRegistry::install`
(`src/registry.rs`): the on-disk registry content `file` is loaded,
every discovered record of `hoisted` is inserted (dedup by identity),
and the registry is written back only when at least one record was
discovered; with zero records the write is skipped and a warning is
emitted instead.  The returned pair is (new on-disk content, warned). -/
def install (file : Finset HoistedBinary) (hoisted : List HoistedBinary) :
    Finset HoistedBinary × Bool :=
  let registry := hoisted.foldl HoistRegistry.insert ⟨file⟩
  match hoisted.length with
  | 0 => (file, true)
  | _ + 1 => (registry.binaries, false)

/-- Iterates `install` with a fixed (unchanged) discovery result,
threading the on-disk registry content through the calls. -/
def installN : Nat → Finset HoistedBinary → List HoistedBinary → Finset HoistedBinary
  | 0, file, _ => file
  | n + 1, file, hoisted => installN n (install file hoisted).1 hoisted

theorem install_fst (file : Finset HoistedBinary) (hoisted : List HoistedBinary) :
    (install file hoisted).1 = file ∪ hoisted.toFinset := by
  cases hoisted with
  | nil => simp [install]
  | cons x t => simp [install, foldl_insert_binaries, insert_binaries, Finset.insert_union]

/-- C3: with an unchanged build-output discovery result, calling
`install` N ≥ 1 times yields the same on-disk registry record set as
calling it exactly once (install is idempotent on registry content). -/
theorem install_idempotent (n : Nat) (file : Finset HoistedBinary)
    (hoisted : List HoistedBinary) (h : 1 ≤ n) :
    installN n file hoisted = installN 1 file hoisted := by
  induction n generalizing file with
  | zero => omega
  | succ m ih =>
    cases Nat.eq_or_lt_of_le h with
    | inl h1 =>
      cases h1
      rfl
    | inr h1 =>
      have hm : 1 ≤ m := by omega
      calc installN (m + 1) file hoisted
          = installN m (install file hoisted).1 hoisted := rfl
        _ = installN 1 (install file hoisted).1 hoisted := ih (install file hoisted).1 hm
        _ = (install (install file hoisted).1 hoisted).1 := rfl
        _ = installN 1 file hoisted := by
            simp [install_fst, installN, Finset.union_assoc]

/-- Witness for C3: three installs of the same record over the empty
registry equal one install. -/
theorem install_idempotent_witness :
    1 ≤ 3 ∧ installN 3 ∅ [⟨"foo", "/a/foo"⟩] = installN 1 ∅ [⟨"foo", "/a/foo"⟩] :=
  ⟨by decide, install_idempotent 3 ∅ [⟨"foo", "/a/foo"⟩] (by decide)⟩

/-- C4: when zero binary records are discovered, `install` skips the
registry save and reports a warning, leaving the on-disk registry
content exactly as it was before the call. -/
theorem install_empty_discovery (file : Finset HoistedBinary) :
    install file [] = (file, true) := rfl

/-- Serialized registry document, at the granularity of the single
`binaries` collection field: `none` models a document from which the
field is entirely absent.  `serialize_registry` embeds the serde
attributes on the `binaries` field of `HoistRegistry`
(`src/registry.rs`): `skip_serializing_if = "HashSet::is_empty"` omits
the field exactly when the set is empty. -/
def serialize_registry (r : HoistRegistry) : Option (Finset HoistedBinary) :=
  if r.binaries = ∅ then none else some r.binaries

/-- Embeds deserialization of the registry document under the
`#[serde(default)]` attribute: an absent `binaries` field loads as the
default (empty) set. -/
def load_registry (doc : Option (Finset HoistedBinary)) : HoistRegistry :=
  ⟨doc.getD ∅⟩

/-- C5: the empty registry serializes to a document that omits the
`binaries` collection field entirely, and loading that document yields
the empty registry back (empty-registry round-trip). -/
theorem empty_registry_roundtrip :
    serialize_registry ⟨∅⟩ = none ∧
    load_registry (serialize_registry ⟨∅⟩) = (⟨∅⟩ : HoistRegistry) := by
  constructor
  · simp [serialize_registry]
  · simp [serialize_registry, load_registry]

/-- Outcome of the selection phase of `HoistRegistry::hoist`
(`src/registry.rs`): either the selection is deferred to an interactive
multiselect prompt over `options` (with `auto` the binaries appended to
the prompt's answer without asking), or a set of binaries is selected
directly and copied without any prompt. -/
inductive HoistOutcome where
  | needsSelection (options : Finset HoistedBinary) (auto : Finset HoistedBinary)
  | selected (bins : Finset HoistedBinary)
deriving DecidableEq

/-- Embeds the selection phase of `HoistRegistry::hoist`
(`src/registry.rs`), after the candidate pool `registered` has been
gathered: with no requested names the user is prompted over the whole
pool; with requested names and no tty on stdout, every candidate whose
name is requested is selected directly ("hoist all binaries, including
redundant ones"); with requested names and a tty, the matching
candidates are put to a multiselect prompt and the candidates whose
name matches exactly one candidate are appended to the prompt's
answer. -/
def hoist_select (registered : Finset HoistedBinary) (names : List String)
    (tty : Bool) : HoistOutcome :=
  if names.isEmpty then
    .needsSelection registered ∅
  else if !tty then
    .selected (registered.filter fun b => b.name ∈ names)
  else
    let found := registered.filter fun b => b.name ∈ names
    let nondup := found.filter fun b => (found.filter fun b2 => b2.name = b.name).card = 1
    .needsSelection found nondup

/-- Embeds `HoistRegistry::setup` as it acts on the registry file
(`create_registry` in `src/registry.rs`): when the file is missing
(`none`) the default (empty) registry is written; an existing file is
left untouched. -/
def setup_file (file : Option (Finset HoistedBinary)) : Option (Finset HoistedBinary) :=
  match file with
  | none => some ∅
  | some r => some r

/-- Embeds `HoistRegistry::hoist` (`src/registry.rs`) as it acts on the
registry file and on the candidate pool: after `setup`, the registry is
read from the file; when none of the requested names is present among
the registered binaries, the binaries freshly discovered from the
current directory's project are inserted into the in-memory pool; the
selection phase then runs on the pool.  The returned pair is (registry
file content after the call, selection outcome). -/
def hoist_run (file : Option (Finset HoistedBinary)) (discovered : List HoistedBinary)
    (names : List String) (tty : Bool) :
    Option (Finset HoistedBinary) × HoistOutcome :=
  let file1 := setup_file file
  let registry : Finset HoistedBinary := file1.getD ∅
  let registered :=
    if ∃ b ∈ registry, b.name ∈ names then registry
    else registry ∪ discovered.toFinset
  (file1, hoist_select registered names tty)

/-- Counterexample to C1: the registry holds two distinct records both
named "foo"; hoisting "foo" with no tty on stdout selects and copies
both candidates directly, instead of surfacing the conflict for
caller-side disambiguation (which would be a `needsSelection`
outcome). -/
theorem hoist_noTty_conflict_counterexample :
    ({⟨"foo", "/a/foo"⟩, ⟨"foo", "/b/foo"⟩} : Finset HoistedBinary).card = 2 ∧
    (hoist_run (some {⟨"foo", "/a/foo"⟩, ⟨"foo", "/b/foo"⟩}) [] ["foo"] false).2
      = .selected {⟨"foo", "/a/foo"⟩, ⟨"foo", "/b/foo"⟩} := by
  constructor
  · decide
  · decide

/-- C1 (amended): in a non-interactive (no-tty) context with a
non-empty list of requested names, `hoist` does not surface a conflict:
it directly selects, for copying, exactly the candidates whose name is
requested — including every member of a same-name conflict set; the
multiselect disambiguation happens only in an interactive (tty)
context. -/
theorem hoist_noTty_selects_all_matches (registered : Finset HoistedBinary)
    (names : List String) (h : names ≠ []) :
    ∃ s, hoist_select registered names false = .selected s ∧
      ∀ b, b ∈ s ↔ b ∈ registered ∧ b.name ∈ names := by
  refine ⟨registered.filter fun b => b.name ∈ names, ?_, ?_⟩
  · simp [hoist_select, h]
  · intro b
    simp [Finset.mem_filter]

/-- Witness for the amended C1 at the concrete conflict registry. -/
theorem hoist_noTty_selects_all_matches_witness :
    ∃ s, hoist_select {⟨"foo", "/a/foo"⟩, ⟨"foo", "/b/foo"⟩} ["foo"] false = .selected s ∧
      ∀ b, b ∈ s ↔ b ∈ ({⟨"foo", "/a/foo"⟩, ⟨"foo", "/b/foo"⟩} : Finset HoistedBinary) ∧
        b.name ∈ ["foo"] :=
  hoist_noTty_selects_all_matches {⟨"foo", "/a/foo"⟩, ⟨"foo", "/b/foo"⟩} ["foo"] (by decide)

/-- C9: `hoist` never writes the registry file content: when the file
exists its content after the call is exactly its content before, and
when it is missing `setup` creates it holding the empty registry — in
either case the binaries discovered by the fallback project scan enter
only the in-memory candidate pool and are never saved to the file. -/
theorem hoist_never_writes_registry :
    (∀ (r : Finset HoistedBinary) (discovered : List HoistedBinary)
      (names : List String) (tty : Bool),
      (hoist_run (some r) discovered names tty).1 = some r) ∧
    (∀ (discovered : List HoistedBinary) (names : List String) (tty : Bool),
      (hoist_run none discovered names tty).1 = some ∅) := by
  exact ⟨fun r d n t => rfl, fun d n t => rfl⟩

/-- One raw directory entry as `Project::get_targets`
(`src/project.rs`) sees it: `fileName` is the result of
`file_name().into_string()` (`none` when the name is not valid text),
and `isDir` records whether the entry is a child directory.  The whole
entry is wrapped in `Option` by the caller: `none` stands for an entry
whose read failed mid-iteration. -/
structure RawEntry where
  fileName : Option String
  isDir : Bool
deriving DecidableEq, Repr

/-- The accumulator loop of `Project::get_targets`: unreadable entries
and entries whose name cannot be converted to text are skipped with a
warning; every other entry's name is pushed, whether or not the entry
is a directory. -/
def get_targets_go : List (Option RawEntry) → List String → List String
  | [], acc => acc
  | none :: rest, acc => get_targets_go rest acc
  | some e :: rest, acc =>
    match e.fileName with
    | none => get_targets_go rest acc
    | some n => get_targets_go rest (acc ++ [n])

/-- Embeds `Project::get_targets` (`src/project.rs`): when the project
root has no `target` top-level directory an empty list is returned (not
an error); otherwise `read_dir` runs on the `target` directory — its
failure propagates — and the entry loop collects the entry names. -/
def get_targets (targetExists : Bool)
    (readDir : Except Unit (List (Option RawEntry))) : Except Unit (List String) :=
  if !targetExists then .ok []
  else
    match readDir with
    | .error e => .error e
    | .ok entries => .ok (get_targets_go entries [])

/-- Modelled from the claim's words, for comparison with
`get_targets`: returns the names of the immediate child directories
only, skipping unreadable entries. -/
def get_targets_dirs_only (targetExists : Bool)
    (readDir : Except Unit (List (Option RawEntry))) : Except Unit (List String) :=
  if !targetExists then .ok []
  else
    match readDir with
    | .error e => .error e
    | .ok entries =>
      .ok (entries.filterMap fun e =>
        match e with
        | some ⟨some n, true⟩ => some n
        | _ => none)

/-- Counterexample to C6: a readable entry of the `target` directory
that is a regular file, not a child directory.  `get_targets` returns
its name, while the claim requires only names of child directories. -/
theorem get_targets_counterexample :
    get_targets true (.ok [some ⟨some "stray.txt", false⟩]) = .ok ["stray.txt"] ∧
    get_targets_dirs_only true (.ok [some ⟨some "stray.txt", false⟩]) = .ok [] := by
  constructor
  · rfl
  · rfl

theorem get_targets_go_eq (entries : List (Option RawEntry)) (acc : List String) :
    get_targets_go entries acc = acc ++ entries.filterMap (fun e => e.bind RawEntry.fileName) := by
  induction entries generalizing acc with
  | nil => simp [get_targets_go]
  | cons e rest ih =>
    cases e with
    | none => simp [get_targets_go, ih]
    | some r =>
      cases hf : r.fileName with
      | none => simp [get_targets_go, hf, ih]
      | some n => simp [get_targets_go, hf, ih]

/-- C6 (amended): when the project root has no build-output (`target`)
top-level directory, `get_targets` returns the empty list and not an
error; otherwise it returns the names of every immediate child entry of
the build-output directory — directory or not — skipping the entries
that cannot be read and those whose name is not valid text, while a
failure of the directory iteration itself propagates as an error. -/
theorem get_targets_spec :
    (∀ readDir, get_targets false readDir = .ok []) ∧
    (∀ entries, get_targets true (.ok entries)
      = .ok (entries.filterMap fun e => e.bind RawEntry.fileName)) ∧
    get_targets true (.error ()) = .error () := by
  refine ⟨fun readDir => rfl, fun entries => ?_, rfl⟩
  simp [get_targets, get_targets_go_eq]

/-- Error taxonomy of the executable prober `exec_path`
(`src/executables.rs`), separating the propagated metadata failure, the
"not executable" bail, and the two base-name failures. -/
inductive ExecErr where
  | ioError
  | notExecutable
  | nameMissing
  | nameNotText
deriving DecidableEq, Repr

/-- File metadata as `exec_path` consumes it: whether the path resolves
to a regular file, and the permission mode bits. -/
structure FileMeta where
  isFile : Bool
  mode : Nat
deriving DecidableEq, Repr

/-- A filesystem path as `exec_path` observes it: `meta` is the result
of `fs::metadata` (`none` when it cannot be read), `fileName` is the
`file_name()` component (`none` when the path has no final component),
holding `none` inside when the name is not valid text (`to_str`
fails). -/
structure FsPath where
  meta : Option FileMeta
  fileName : Option (Option String)
deriving DecidableEq, Repr

/-- Embeds `exec_path` (`src/executables.rs`): metadata failure
propagates; a path that is not a regular file or has no executable
permission bit (mask `0o111`) for owner, group or other is rejected as
not executable; otherwise the base name is extracted and converted to
text, each step failing with its own error. -/
def exec_path (p : FsPath) : Except ExecErr String :=
  match p.meta with
  | none => .error .ioError
  | some m =>
    if !m.isFile || Nat.land m.mode 73 == 0 then .error .notExecutable
    else
      match p.fileName with
      | none => .error .nameMissing
      | some none => .error .nameNotText
      | some (some s) => .ok s

/-- Counterexample to C7: a path whose metadata reads fine, which is a
regular file with mode `0o755` (= 493, so `mode & 0o111 ≠ 0`), but
whose base name is not valid text.  The claim's iff requires success
here, yet `exec_path` fails — with an error that is neither the
not-executable error nor the I/O error. -/
theorem exec_path_counterexample :
    Nat.land 493 73 ≠ 0 ∧
    exec_path ⟨some ⟨true, 493⟩, some none⟩ = .error .nameNotText := by
  constructor
  · decide
  · rfl

/-- C7 (amended): `exec_path` succeeds and returns the file's base name
as text iff the metadata is readable, the path is a regular file with
at least one executable permission bit for owner, group or other, and
the base name exists and is valid text; it signals the not-executable
error whenever the metadata is readable but the path is not a regular
file or lacks every executable bit, and the I/O error exactly when the
metadata cannot be read. -/
theorem exec_path_spec (p : FsPath) :
    (∀ s, exec_path p = .ok s ↔
      ∃ m, p.meta = some m ∧ m.isFile = true ∧ Nat.land m.mode 73 ≠ 0 ∧
        p.fileName = some (some s)) ∧
    (∀ m, p.meta = some m → (m.isFile = false ∨ Nat.land m.mode 73 = 0) →
      exec_path p = .error .notExecutable) ∧
    (exec_path p = .error .ioError ↔ p.meta = none) := by
  refine ⟨fun s => ?_, fun m hm hbad => ?_, ?_⟩
  · cases hm : p.meta with
    | none => simp [exec_path, hm]
    | some m =>
      by_cases hf : m.isFile
      · by_cases hx : Nat.land m.mode 73 = 0
        · simp [exec_path, hm, hf, hx]
        · cases hn : p.fileName with
          | none => simp [exec_path, hm, hf, hx, hn]
          | some o =>
            cases o with
            | none => simp [exec_path, hm, hf, hx, hn]
            | some t =>
              simp only [exec_path, hm, hf, hx, hn]
              constructor
              · intro h1
                exact ⟨m, rfl, hf, hx, by simp_all⟩
              · rintro ⟨m1, hm1, -, -, hfn⟩
                simp_all
      · have hf0 : m.isFile = false := by simp_all
        simp [exec_path, hm, hf0]
  · rcases hbad with hbad | hbad
    · simp [exec_path, hm, hbad]
    · cases hf : m.isFile <;> simp [exec_path, hm, hf, hbad]
  · cases hm : p.meta with
    | none => simp [exec_path, hm]
    | some m =>
      by_cases hf : m.isFile
      · by_cases hx : Nat.land m.mode 73 = 0
        · simp [exec_path, hm, hf, hx]
        · cases hn : p.fileName with
          | none => simp [exec_path, hm, hf, hx, hn]
          | some o => cases o <;> simp [exec_path, hm, hf, hx, hn]
      · simp [exec_path, hm, hf]

/-- Witness for the amended C7: a regular file with mode `0o755` and
base name "foo" probes successfully; a directory is rejected as not
executable; unreadable metadata gives the I/O error. -/
theorem exec_path_spec_witness :
    exec_path ⟨some ⟨true, 493⟩, some (some "foo")⟩ = .ok "foo" ∧
    exec_path ⟨some ⟨false, 493⟩, some (some "d")⟩ = .error .notExecutable ∧
    exec_path ⟨none, some (some "g")⟩ = .error .ioError :=
  ⟨((exec_path_spec ⟨some ⟨true, 493⟩, some (some "foo")⟩).1 "foo").mpr
      ⟨⟨true, 493⟩, rfl, rfl, by decide, rfl⟩,
    (exec_path_spec ⟨some ⟨false, 493⟩, some (some "d")⟩).2.1 ⟨false, 493⟩ rfl (Or.inl rfl),
    ((exec_path_spec ⟨none, some (some "g")⟩).2.2).mpr rfl⟩

/-- A discovered binary path as `Project::set_binaries`
(`src/project.rs`) observes it: `nameLossy` is the result of
`file_name().unwrap_or_default().to_string_lossy()` (the matching key),
and `full` is the path value itself, distinguishing paths that share a
base name. -/
structure BinPath where
  nameLossy : String
  full : String
deriving DecidableEq, Repr

/-- The project state relevant to `set_binaries`: its transient list of
discovered binary paths (embeds the `binaries` field of `Project` in
`src/project.rs`). -/
structure Project where
  binaries : List BinPath
deriving DecidableEq, Repr

/-- The lookup inside `Project::set_binaries`: the first discovered
path whose base name equals the requested name. -/
def find_binary (loaded : List BinPath) (name : String) : Option BinPath :=
  loaded.find? fun b => b.nameLossy == name

/-- The resolution loop of `Project::set_binaries`: each requested name
in order is matched against the discovered paths; the first unmatched
name aborts the loop with an error. -/
def resolve_binaries (loaded : List BinPath) : List String → Except Unit (List BinPath)
  | [] => .ok []
  | n :: rest =>
    match find_binary loaded n with
    | none => .error ()
    | some b => (resolve_binaries loaded rest).map (b :: ·)

/-- Embeds `Project::set_binaries` (`src/project.rs`) together with its
mutation of `self`: `load` runs first — on its failure the project is
returned unchanged — replacing the project's binaries with the full
discovery result `loaded`; then the requested names are resolved, and
only when every name matched is the binaries list replaced by the
resolved selection.  The returned pair is (call result, final project
state). -/
def set_binaries (p : Project) (loadRes : Except Unit (List BinPath))
    (names : List String) : Except Unit Unit × Project :=
  match loadRes with
  | .error e => (.error e, p)
  | .ok loaded =>
    match resolve_binaries loaded names with
    | .error e => (.error e, ⟨loaded⟩)
    | .ok bins => (.ok (), ⟨bins⟩)

theorem resolve_binaries_ok_iff (loaded : List BinPath) (names : List String) :
    (∃ bins, resolve_binaries loaded names = .ok bins) ↔
      ∀ n ∈ names, (find_binary loaded n).isSome := by
  induction names with
  | nil => simp [resolve_binaries]
  | cons n rest ih =>
    cases hfb : find_binary loaded n with
    | none => simp [resolve_binaries, hfb]
    | some b =>
      simp only [resolve_binaries, hfb, List.mem_cons]
      constructor
      · rintro ⟨bins, hbins⟩
        cases hr : resolve_binaries loaded rest with
        | error e => rw [hr] at hbins; simp [Except.map] at hbins
        | ok tl =>
          intro x hx
          rcases hx with hx | hx
          · subst hx; simp [hfb]
          · exact ih.mp ⟨tl, hr⟩ x hx
      · intro hall
        rcases ih.mpr (fun x hx => hall x (Or.inr hx)) with ⟨tl, hr⟩
        exact ⟨b :: tl, by simp [hr, Except.map]⟩

theorem resolve_binaries_ok_eq (loaded : List BinPath) (names : List String)
    (bins : List BinPath) (h : resolve_binaries loaded names = .ok bins) :
    bins = names.filterMap (find_binary loaded) := by
  induction names generalizing bins with
  | nil => simp [resolve_binaries] at h; simp [h]
  | cons n rest ih =>
    cases hfb : find_binary loaded n with
    | none => simp [resolve_binaries, hfb] at h
    | some b =>
      simp only [resolve_binaries, hfb] at h
      cases hr : resolve_binaries loaded rest with
      | error e => rw [hr] at h; simp [Except.map] at h
      | ok tl =>
        rw [hr] at h
        simp only [Except.map] at h
        cases h
        simp [List.filterMap_cons, hfb, ih tl hr]

/-- C8: `set_binaries` first performs `load` and then resolves every
requested name against the discovered paths by base-name equality: a
match is a discovered path whose base name equals the requested name;
the call succeeds iff every requested name has a match, in which case
the project's binaries become exactly the resolved selection in request
order; if any requested name has no match the whole call fails and the
project's binaries are the full discovery result, never a selection
restricted to the names that did match. -/
theorem set_binaries_spec (p : Project) (loaded : List BinPath) (names : List String) :
    ((set_binaries p (.ok loaded) names).1 = .ok () ↔
      ∀ n ∈ names, (find_binary loaded n).isSome) ∧
    ((set_binaries p (.ok loaded) names).1 = .ok () →
      (set_binaries p (.ok loaded) names).2.binaries
        = names.filterMap (find_binary loaded)) ∧
    ((set_binaries p (.ok loaded) names).1 = .error () →
      (set_binaries p (.ok loaded) names).2.binaries = loaded) ∧
    (∀ n b, find_binary loaded n = some b → b.nameLossy = n ∧ b ∈ loaded) := by
  refine ⟨?_, ?_, ?_, ?_⟩
  · cases hr : resolve_binaries loaded names with
    | error e =>
      simp only [set_binaries, hr]
      constructor
      · intro h; simp at h
      · intro hall
        rcases (resolve_binaries_ok_iff loaded names).mpr hall with ⟨bins, hbins⟩
        rw [hr] at hbins; cases hbins
    | ok bins =>
      simp only [set_binaries, hr]
      exact ⟨fun _ => (resolve_binaries_ok_iff loaded names).mp ⟨bins, hr⟩, fun _ => by simp⟩
  · cases hr : resolve_binaries loaded names with
    | error e => simp [set_binaries, hr]
    | ok bins =>
      intro h
      simp [set_binaries, hr, resolve_binaries_ok_eq loaded names bins hr]
  · cases hr : resolve_binaries loaded names with
    | error e => intro h; simp [set_binaries, hr]
    | ok bins => simp [set_binaries, hr]
  · intro n b hfb
    have hmem := List.mem_of_find?_eq_some hfb
    have hname := List.find?_some hfb
    simp at hname
    exact ⟨hname, hmem⟩

/-- Witness for C8 at concrete inputs: requesting "foo" over a
discovery containing a path named "foo" succeeds and selects it;
requesting the absent "bar" fails and leaves the project's binaries at
the full discovery result. -/
theorem set_binaries_spec_witness :
    (set_binaries ⟨[]⟩ (.ok [⟨"foo", "/t/release/foo"⟩]) ["foo"]).1 = .ok () ∧
    (set_binaries ⟨[]⟩ (.ok [⟨"foo", "/t/release/foo"⟩]) ["foo"]).2.binaries
      = [⟨"foo", "/t/release/foo"⟩] ∧
    (set_binaries ⟨[]⟩ (.ok [⟨"foo", "/t/release/foo"⟩]) ["foo", "bar"]).2.binaries
      = [⟨"foo", "/t/release/foo"⟩] := by
  refine ⟨?_, ?_, ?_⟩
  · exact (set_binaries_spec ⟨[]⟩ [⟨"foo", "/t/release/foo"⟩] ["foo"]).1.mpr (by decide)
  · have h1 := (set_binaries_spec ⟨[]⟩ [⟨"foo", "/t/release/foo"⟩] ["foo"]).2.1
      ((set_binaries_spec ⟨[]⟩ [⟨"foo", "/t/release/foo"⟩] ["foo"]).1.mpr (by decide))
    rw [h1]; decide
  · have h2 := (set_binaries_spec ⟨[]⟩ [⟨"foo", "/t/release/foo"⟩] ["foo", "bar"]).2.2.1
      (by rfl)
    rw [h2]

/-- Consecutive deduplication, as `Vec::dedup` performs it: removes
the elements equal to their immediate predecessor. -/
def rustDedup {α : Type} [DecidableEq α] : List α → List α
  | [] => []
  | [a] => [a]
  | a :: b :: rest =>
    if a = b then rustDedup (b :: rest) else a :: rustDedup (b :: rest)

theorem mem_rustDedup {α : Type} [DecidableEq α] {x : α} {l : List α} :
    x ∈ rustDedup l ↔ x ∈ l := by
  induction l with
  | nil => simp [rustDedup]
  | cons a t ih =>
    cases t with
    | nil => simp [rustDedup]
    | cons b r =>
      by_cases he : a = b
      · subst he
        simpa [rustDedup] using ih
      · simp [rustDedup, he, ih]

theorem rustDedup_sorted {α : Type} [LinearOrder α] {l : List α}
    (h : l.Sorted (· ≤ ·)) : (rustDedup l).Sorted (· < ·) := by
  induction l with
  | nil => simp [rustDedup]
  | cons a t ih =>
    cases t with
    | nil => simp [rustDedup]
    | cons b r =>
      have hab : a ≤ b := (List.sorted_cons.mp h).1 b (by simp)
      have ht : (b :: r).Sorted (· ≤ ·) := (List.sorted_cons.mp h).2
      by_cases he : a = b
      · simpa [rustDedup, he] using ih ht
      · simp only [rustDedup, if_neg he]
        refine List.sorted_cons.mpr ⟨?_, ih ht⟩
        intro x hx
        have hxm : x ∈ b :: r := mem_rustDedup.mp hx
        rcases List.mem_cons.mp hxm with hxb | hxr
        · subst hxb
          exact lt_of_le_of_ne hab he
        · have hbx : b ≤ x := (List.sorted_cons.mp ht).1 x hxr
          exact lt_of_lt_of_le (lt_of_le_of_ne hab he) hbx

/-- Embeds `merge_and_dedup_vecs` (`src/utils.rs`): both optional
vectors are appended into one (an absent input contributes nothing),
the result is sorted by the order on the elements, and consecutive
duplicates are removed. -/
def merge_and_dedup_vecs {α : Type} [LinearOrder α] (a b : Option (List α)) : List α :=
  let merged := a.getD [] ++ b.getD []
  rustDedup (merged.mergeSort fun x y => decide (x ≤ y))

/-- C10: `merge_and_dedup_vecs` returns a sorted vector without
duplicate elements whose element set is the union of the element sets
of the two inputs (an absent input counting as empty), and in
particular returns the empty vector when both inputs are absent. -/
theorem merge_and_dedup_vecs_spec {α : Type} [LinearOrder α] (a b : Option (List α)) :
    (merge_and_dedup_vecs a b).Sorted (· ≤ ·) ∧
    (merge_and_dedup_vecs a b).Nodup ∧
    (∀ x, x ∈ merge_and_dedup_vecs a b ↔ x ∈ a.getD [] ∨ x ∈ b.getD []) ∧
    merge_and_dedup_vecs (none : Option (List α)) none = [] := by
  have htrans : ∀ (x y z : α),
      (fun u v => decide (u ≤ v)) x y → (fun u v => decide (u ≤ v)) y z →
      (fun u v => decide (u ≤ v)) x z := by
    intro x y z h1 h2
    simp only [decide_eq_true_eq] at *
    exact le_trans h1 h2
  have htotal : ∀ (x y : α),
      ((fun u v => decide (u ≤ v)) x y || (fun u v => decide (u ≤ v)) y x) = true := by
    intro x y
    simpa using le_total x y
  have hsorted : ((a.getD [] ++ b.getD []).mergeSort fun x y => decide (x ≤ y)).Sorted
      (· ≤ ·) := by
    have hp := List.sorted_mergeSort htrans htotal (a.getD [] ++ b.getD [])
    exact hp.imp fun h => by simpa using h
  have hlt : (merge_and_dedup_vecs a b).Sorted (· < ·) := rustDedup_sorted hsorted
  refine ⟨hlt.imp le_of_lt, hlt.imp ne_of_lt, fun x => ?_, by simp [merge_and_dedup_vecs, rustDedup]⟩
  rw [merge_and_dedup_vecs]
  rw [mem_rustDedup, (List.mergeSort_perm (a.getD [] ++ b.getD []) _).mem_iff]
  exact List.mem_append

end CargoHoist
